import Mathlib

/-!
Verification of the qibo custom-operator CPU kernels
(`apply_gate_kernels.cc`, `transpose_state.cc`).

The three functors are shallowly embedded: state vectors and device pieces
become functions `Nat → α` over a commutative ring `α` (the code instantiates
`T` at `complex64`/`complex128`; the claims about exact complex arithmetic are
stated at `α = ℂ`), in-place mutation becomes explicit state passing through
folds that mirror the loops, and the `OP_REQUIRES` device guard of each
`Compute` method becomes an `Except` value.
-/

namespace Qibo

/-! ### ApplyGateFunctor (apply_gate_kernels.cc) -/

/-- The control weights `ck = 2^(nqubits - controls[i] - 1)` computed in the
setup loop of `ApplyGateFunctor`.  The source inserts them into a
`std::set<int64> cks`; the eligibility test below is a pure conjunction over
the collection, so the set's ordering and deduplication do not change its
value and a list keeps the source's data. -/
def controlKs (n : Nat) (controls : List Nat) : List Nat :=
  controls.map fun c => 2 ^ (n - c - 1)

/-- The total `cktot`, accumulated as `cktot += ck` over the raw control array. -/
def cktot (n : Nat) (controls : List Nat) : Nat := (controlKs n controls).sum

/-- The eligibility test of the inner loop: `apply` stays true iff
`(i / ck) % 2 == 0` for every control weight `ck` (the source breaks at the
first failure; `List.all` short-circuits the same way). -/
def controlsClear (cks : List Nat) (i : Nat) : Bool :=
  cks.all fun ck => (i / ck) % 2 == 0

/-- One eligible pair update of `ApplyGateFunctor`: with `i1 = i + cktot` and
`i2 = i1 + tk`, the source buffers `state[i1]` before overwriting it, so both
new values are linear combinations of the pre-update pair. -/
def applyPair {α : Type*} [CommRing α] (g0 g1 g2 g3 : α) (tk i1 : Nat)
    (s : Nat → α) : Nat → α :=
  fun j =>
    if j = i1 then g0 * s i1 + g1 * s (i1 + tk)
    else if j = i1 + tk then g2 * s i1 + g3 * s (i1 + tk)
    else s j

/-- The skeleton indices walked by `DoWork` over all blocks: the scheduler
splits `[0, nstates)` into fixed blocks of size `2*tk` starting at the
multiples `g = 2*tk*b`, and each call walks the lower half `[g, g + tk)`. -/
def skeletons (nblocks tk : Nat) : List Nat :=
  (List.range nblocks).flatMap fun b => (List.range tk).map fun j => 2 * tk * b + j

/-- The guarded pair updates folded over a list of skeleton indices. -/
def gateLoop {α : Type*} [CommRing α] (g0 g1 g2 g3 : α) (tk ckt : Nat)
    (cks : List Nat) (s : Nat → α) (is : List Nat) : Nat → α :=
  is.foldl
    (fun s i => if controlsClear cks i then applyPair g0 g1 g2 g3 tk (i + ckt) s else s) s

/-- The functor `ApplyGateFunctor<CPUDevice, T>::operator()`: `nstates = 2^nqubits`,
`tk = 2^(nqubits - target - 1)`, control weights and `cktot` as above, then
the block loop applies the guarded 2×2 transform. -/
def applyGate {α : Type*} [CommRing α] (n t : Nat) (g0 g1 g2 g3 : α)
    (controls : List Nat) (s : Nat → α) : Nat → α :=
  let nstates := 2 ^ n
  let tk := 2 ^ (n - t - 1)
  gateLoop g0 g1 g2 g3 tk (cktot n controls) (controlKs n controls) s
    (skeletons (nstates / (2 * tk)) tk)

/-- The eligible skeleton bases of one `ApplyGateFunctor` call: the skeleton
indices that pass the control-clear test. -/
def eligibleBases (n t : Nat) (controls : List Nat) : List Nat :=
  (skeletons (2 ^ n / (2 * 2 ^ (n - t - 1))) (2 ^ (n - t - 1))).filter
    (controlsClear (controlKs n controls))

/-! ### TransposeStateFunctor (transpose_state.cc) -/

/-- The weights `qubit_exponents[q] = 1 << (nqubits - qubit_order[nqubits - q - 1] - 1)`.
The `qubit_order` array is embedded as a function on indices. -/
def qubitExponents (n : Nat) (order : Nat → Nat) (q : Nat) : Nat :=
  2 ^ (n - order (n - q - 1) - 1)

/-- The accumulation loop of `TransposeStateFunctor`:
`k += qubit_exponents[q]` for every `q < nqubits` with `(g >> q) % 2` set. -/
def transposeK (n : Nat) (order : Nat → Nat) (g : Nat) : Nat :=
  (List.range n).foldl
    (fun k q => if (g >>> q) % 2 = 1 then k + qubitExponents n order q else k) 0

/-- The functor `TransposeStateFunctor<CPUDevice, T>::operator()`: `state` is the vector of
device pieces (piece index, offset ↦ amplitude), and output cell `g` receives
`state[k / npiece][k % npiece]`. -/
def transposeState {α : Type*} (n ndev : Nat) (order : Nat → Nat)
    (state : Nat → Nat → α) (g : Nat) : α :=
  let nstates := 2 ^ n
  let npiece := nstates / ndev
  state (transposeK n order g / npiece) (transposeK n order g % npiece)

/-! ### SwapPiecesFunctor (transpose_state.cc) -/

/-- The index computation of the swap loop:
`i = ((g >> m) << (m + 1)) + (g & (tk - 1))` with `tk = 2^m`. -/
def swapIndex (m g : Nat) : Nat :=
  ((g >>> m) <<< (m + 1)) + (g &&& (2 ^ m - 1))

/-- One iteration of the swap loop: `std::swap(piece0[i + tk], piece1[i])`. -/
def swapStep {α : Type*} (tk i : Nat) (p : (Nat → α) × (Nat → α)) :
    (Nat → α) × (Nat → α) :=
  (fun j => if j = i + tk then p.2 i else p.1 j,
   fun j => if j = i then p.1 (i + tk) else p.2 j)

/-- The functor `SwapPiecesFunctor<CPUDevice, T>::operator()`: `m = nqubits - new_global - 1`,
`tk = 2^m`, `nstates = 2^(nqubits - 1)`, and each `g` swaps one pair of cells. -/
def swapPieces {α : Type*} (n ng : Nat) (p0 p1 : Nat → α) :
    (Nat → α) × (Nat → α) :=
  let m := n - ng - 1
  let tk := 2 ^ m
  let nstates := 2 ^ (n - 1)
  (List.range nstates).foldl (fun p g => swapStep tk (swapIndex m g) p) (p0, p1)

/-! ### The Compute wrappers and their device guard -/

/-- The execution device selected for a kernel instantiation. -/
inductive Device
  | cpu
  | gpu
deriving DecidableEq

/-- The method `ApplyGateOp::Compute`: `OP_REQUIRES` checks
`std::is_same<Device, CPUDevice>` and raises `errors::Unimplemented` before the
functor is invoked, so on the GPU no amplitude is read or written and no
output is produced. -/
def applyGateOpCompute {α : Type*} [CommRing α] (dev : Device) (n t : Nat)
    (g0 g1 g2 g3 : α) (controls : List Nat) (s : Nat → α) :
    Except String (Nat → α) :=
  if dev = Device.cpu then
    Except.ok (applyGate n t g0 g1 g2 g3 controls s)
  else
    Except.error "ApplyGate operator not implemented for GPU."

/-- The method `TransposeStateOp::Compute` with the same device guard. -/
def transposeStateOpCompute {α : Type*} (dev : Device) (n ndev : Nat)
    (order : Nat → Nat) (state : Nat → Nat → α) : Except String (Nat → α) :=
  if dev = Device.cpu then
    Except.ok (transposeState n ndev order state)
  else
    Except.error "TransposeStateOp operator not implemented for GPU."

/-- The method `SwapPiecesOp::Compute` with the same device guard. -/
def swapPiecesOpCompute {α : Type*} (dev : Device) (n ng : Nat)
    (p0 p1 : Nat → α) : Except String ((Nat → α) × (Nat → α)) :=
  if dev = Device.cpu then
    Except.ok (swapPieces n ng p0 p1)
  else
    Except.error "SwapPiecesOp operator not implemented for GPU."

/-! ### Predicates used to state the claims -/

/-- The preconditions on an `ApplyGateFunctor` call stated by the
specification: `0 <= target < nqubits`, and control indices in range,
distinct from the target and from each other. -/
def validCall (n t : Nat) (controls : List Nat) : Prop :=
  t < n ∧ (∀ c ∈ controls, c < n ∧ c ≠ t) ∧ controls.Pairwise (· ≠ ·)

/-- Index `j` is the lower member of an updated basis pair: in range, target
bit clear (bit `target` counted from the most significant end, hence position
`n - t - 1` from the least significant end), and every control bit set. -/
def pairBase (n t : Nat) (controls : List Nat) (j : Nat) : Prop :=
  j < 2 ^ n ∧ j.testBit (n - t - 1) = false ∧
    ∀ c ∈ controls, j.testBit (n - c - 1) = true

instance validCall.instDecidable (n t : Nat) (controls : List Nat) :
    Decidable (validCall n t controls) := by
  unfold validCall
  infer_instance

instance pairBase.instDecidable (n t : Nat) (controls : List Nat) (j : Nat) :
    Decidable (pairBase n t controls j) := by
  unfold pairBase
  infer_instance

/-- Total squared-magnitude norm of the first `N` amplitudes. -/
def stateNorm (N : Nat) (s : Nat → ℂ) : ℝ :=
  ∑ j ∈ Finset.range N, Complex.normSq (s j)

/-! ### Bit-arithmetic helpers -/

theorem testBit_eq_false_of_lt_two_pow {x n q : Nat} (hx : x < 2 ^ n) (hq : n ≤ q) :
    x.testBit q = false :=
  Nat.testBit_lt_two_pow (lt_of_lt_of_le hx (Nat.pow_le_pow_right (by norm_num) hq))

theorem mod_two_pow_succ_of_clear {x p : Nat} (hx : x.testBit p = false) :
    x % 2 ^ (p + 1) = x % 2 ^ p := by
  have hb : x / 2 ^ p % 2 ≠ 1 := by
    intro h
    rw [Nat.testBit_to_div_mod, h] at hx
    simp at hx
  have hb0 : x / 2 ^ p % 2 = 0 := by omega
  have h := Nat.mod_mul (a := 2 ^ p) (b := 2) (x := x)
  rw [pow_succ, h, hb0]
  simp

theorem testBit_add_two_pow_of_clear {x p : Nat} (hx : x.testBit p = false) (q : Nat) :
    (x + 2 ^ p).testBit q = (x.testBit q || decide (q = p)) := by
  have hlo : x % 2 ^ (p + 1) < 2 ^ p := by
    rw [mod_two_pow_succ_of_clear hx]
    exact Nat.mod_lt _ (Nat.two_pow_pos p)
  have hs : 2 ^ (p + 1) = 2 ^ p * 2 := pow_succ 2 p
  have hb : 2 ^ p + x % 2 ^ (p + 1) < 2 ^ (p + 1) := by omega
  have hx1 : x = 2 ^ (p + 1) * (x / 2 ^ (p + 1)) + x % 2 ^ (p + 1) :=
    (Nat.div_add_mod x (2 ^ (p + 1))).symm
  have hx2 : x + 2 ^ p = 2 ^ (p + 1) * (x / 2 ^ (p + 1)) + (2 ^ p + x % 2 ^ (p + 1)) := by
    omega
  rw [hx2, Nat.testBit_mul_pow_two_add _ hb]
  rcases Nat.lt_trichotomy q p with hq | hq | hq
  · rw [Nat.testBit_two_pow_add_gt hq]
    have : q < p + 1 := by omega
    simp only [this, if_true]
    nth_rewrite 2 [hx1]
    rw [Nat.testBit_mul_pow_two_add _ (Nat.mod_lt _ (Nat.two_pow_pos (p + 1)))]
    simp [this, Nat.ne_of_lt hq]
  · subst hq
    have : q < q + 1 := by omega
    simp only [this, if_true, Nat.testBit_two_pow_add_eq]
    have : (x % 2 ^ (q + 1)).testBit q = false := Nat.testBit_lt_two_pow hlo
    simp [this, hx]
  · have h1 : ¬ q < p + 1 := by omega
    simp only [h1, if_false]
    nth_rewrite 2 [hx1]
    rw [Nat.testBit_mul_pow_two_add _ (Nat.mod_lt _ (Nat.two_pow_pos (p + 1)))]
    simp [h1, Nat.ne_of_gt hq]

theorem testBit_add_sum_two_pow : ∀ (ps : List Nat), ps.Pairwise (· ≠ ·) →
    ∀ (x : Nat), (∀ p ∈ ps, x.testBit p = false) →
    ∀ q, (x + (ps.map fun p => 2 ^ p).sum).testBit q
      = (x.testBit q || decide (q ∈ ps)) := by
  intro ps
  induction ps with
  | nil => intro _ x _ q; simp
  | cons p ps ih =>
    intro hps x hx q
    have hpps : p ∉ ps := fun hmem => (List.pairwise_cons.mp hps).1 p hmem rfl
    have hps' : ps.Pairwise (· ≠ ·) := (List.pairwise_cons.mp hps).2
    have hxps : ∀ r ∈ ps, x.testBit r = false :=
      fun r hr => hx r (List.mem_cons_of_mem _ hr)
    have hrec := ih hps' x hxps
    have hclear : (x + (ps.map fun p => 2 ^ p).sum).testBit p = false := by
      rw [hrec p, hx p (List.mem_cons_self ..)]
      simp [hpps]
    have hsplit : x + ((p :: ps).map fun p => 2 ^ p).sum
        = (x + (ps.map fun p => 2 ^ p).sum) + 2 ^ p := by
      simp only [List.map_cons, List.sum_cons]
      ring
    rw [hsplit, testBit_add_two_pow_of_clear hclear q, hrec q]
    by_cases hqp : q = p
    · subst hqp; simp
    · simp [hqp, List.mem_cons]

theorem controlKs_eq (n : Nat) (controls : List Nat) :
    controlKs n controls = (controls.map fun c => n - c - 1).map fun p => 2 ^ p := by
  simp [controlKs, List.map_map, Function.comp_def]

theorem controlsClear_iff (n : Nat) (controls : List Nat) (i : Nat) :
    controlsClear (controlKs n controls) i = true ↔
      ∀ c ∈ controls, i.testBit (n - c - 1) = false := by
  simp only [controlsClear, controlKs, List.all_eq_true, List.mem_map,
    forall_exists_index, and_imp]
  constructor
  · intro h c hc
    have hb := h _ c hc rfl
    simp only [beq_iff_eq] at hb
    rw [Nat.testBit_to_div_mod]
    simp [hb]
  · intro h ck c hc hck
    subst hck
    have hb := h c hc
    rw [Nat.testBit_to_div_mod] at hb
    simp only [decide_eq_false_iff_not] at hb
    have h2 : i / 2 ^ (n - c - 1) % 2 = 0 := by omega
    simp [h2]

theorem mlist_pairwise {n t : Nat} {controls : List Nat} (hv : validCall n t controls) :
    (controls.map fun c => n - c - 1).Pairwise (· ≠ ·) := by
  refine List.pairwise_map.mpr (hv.2.2.imp_of_mem ?_)
  intro a b ha hb hab
  have han := (hv.2.1 a ha).1
  have hbn := (hv.2.1 b hb).1
  omega

theorem cktot_testBit {n t : Nat} {controls : List Nat} (hv : validCall n t controls)
    (q : Nat) :
    (cktot n controls).testBit q = decide (q ∈ controls.map fun c => n - c - 1) := by
  have h := testBit_add_sum_two_pow (controls.map fun c => n - c - 1)
    (mlist_pairwise hv) 0 (by simp) q
  simpa [cktot, controlKs_eq] using h

theorem target_notMem_mlist {n t : Nat} {controls : List Nat} (hv : validCall n t controls) :
    (n - t - 1) ∉ controls.map fun c => n - c - 1 := by
  intro hmem
  obtain ⟨c, hc, hceq⟩ := List.mem_map.mp hmem
  have := hv.2.1 c hc
  have := hv.1
  omega

theorem mem_skeletons_iff {n t : Nat} (ht : t < n) (i : Nat) :
    i ∈ skeletons (2 ^ n / (2 * 2 ^ (n - t - 1))) (2 ^ (n - t - 1)) ↔
      i < 2 ^ n ∧ i.testBit (n - t - 1) = false := by
  have hm1 : n - t - 1 + 1 ≤ n := by omega
  have h2 : 2 * 2 ^ (n - t - 1) = 2 ^ (n - t - 1 + 1) := (pow_succ 2 (n - t - 1)).symm ▸ by ring
  have hnb : 2 ^ n / (2 * 2 ^ (n - t - 1)) = 2 ^ (n - (n - t - 1) - 1) := by
    rw [h2, Nat.pow_div hm1 (by norm_num)]
    congr 1
  have hpow : 2 ^ (n - t - 1 + 1) * 2 ^ (n - (n - t - 1) - 1) = 2 ^ n := by
    rw [← pow_add]
    congr 1
    omega
  simp only [skeletons, List.mem_flatMap, List.mem_map, List.mem_range, hnb]
  constructor
  · rintro ⟨b, hb, j, hj, rfl⟩
    have hjlt : j < 2 ^ (n - t - 1 + 1) := by
      have : (2 : Nat) ^ (n - t - 1 + 1) = 2 * 2 ^ (n - t - 1) := by rw [h2]
      omega
    constructor
    · have hb1 : b + 1 ≤ 2 ^ (n - (n - t - 1) - 1) := hb
      calc 2 * 2 ^ (n - t - 1) * b + j
          < 2 ^ (n - t - 1 + 1) * b + 2 ^ (n - t - 1 + 1) := by rw [← h2]; omega
        _ = 2 ^ (n - t - 1 + 1) * (b + 1) := by ring
        _ ≤ 2 ^ (n - t - 1 + 1) * 2 ^ (n - (n - t - 1) - 1) :=
            Nat.mul_le_mul_left _ hb1
        _ = 2 ^ n := hpow
    · rw [show 2 * 2 ^ (n - t - 1) * b + j = 2 ^ (n - t - 1 + 1) * b + j by rw [h2]]
      rw [Nat.testBit_mul_pow_two_add _ hjlt]
      simp [Nat.testBit_lt_two_pow hj]
  · rintro ⟨hlt, hbit⟩
    refine ⟨i / 2 ^ (n - t - 1 + 1), ?_, i % 2 ^ (n - t - 1 + 1), ?_, ?_⟩
    · rw [Nat.div_lt_iff_lt_mul (Nat.two_pow_pos _)]
      calc i < 2 ^ n := hlt
        _ = 2 ^ (n - (n - t - 1) - 1) * 2 ^ (n - t - 1 + 1) := by
            rw [Nat.mul_comm]; exact hpow.symm
    · rw [mod_two_pow_succ_of_clear hbit]
      exact Nat.mod_lt _ (Nat.two_pow_pos _)
    · rw [h2]
      exact Nat.div_add_mod i (2 ^ (n - t - 1 + 1))

theorem skeletons_nodup (nblocks tk : Nat) : (skeletons nblocks tk).Nodup := by
  rw [skeletons, List.nodup_flatMap]
  constructor
  · intro b _
    exact (List.nodup_range _).map fun x y hxy => by omega
  · refine (List.pairwise_lt_range _).imp_of_mem ?_
    intro a b _ _ hab
    intro x hxa hxb
    obtain ⟨j, hj, rfl⟩ := List.mem_map.mp hxa
    obtain ⟨j', hj', he⟩ := List.mem_map.mp hxb
    rw [List.mem_range] at hj hj'
    have hmul : 2 * tk * (a + 1) ≤ 2 * tk * b := Nat.mul_le_mul_left _ (by omega)
    have h1 : 2 * tk * a + 2 * tk = 2 * tk * (a + 1) := by ring
    omega

theorem mem_eligibleBases_iff {n t : Nat} {controls : List Nat}
    (hv : validCall n t controls) (i : Nat) :
    i ∈ eligibleBases n t controls ↔
      i < 2 ^ n ∧ i.testBit (n - t - 1) = false ∧
        controlsClear (controlKs n controls) i = true := by
  rw [eligibleBases, List.mem_filter, mem_skeletons_iff hv.1, and_assoc]

theorem pairBase_add_cktot {n t : Nat} {controls : List Nat} (hv : validCall n t controls)
    {i : Nat} (hi : i < 2 ^ n) (hbit : i.testBit (n - t - 1) = false)
    (hclear : controlsClear (controlKs n controls) i = true) :
    pairBase n t controls (i + cktot n controls) := by
  have hc := (controlsClear_iff n controls i).mp hclear
  have hsum : cktot n controls = ((controls.map fun c => n - c - 1).map fun p => 2 ^ p).sum := by
    rw [cktot, controlKs_eq]
  have hmclear : ∀ p ∈ controls.map fun c => n - c - 1, i.testBit p = false := by
    intro p hp
    obtain ⟨c, hcm, rfl⟩ := List.mem_map.mp hp
    exact hc c hcm
  have hadd : ∀ q, (i + cktot n controls).testBit q
      = (i.testBit q || decide (q ∈ controls.map fun c => n - c - 1)) := by
    intro q
    rw [hsum]
    exact testBit_add_sum_two_pow _ (mlist_pairwise hv) i hmclear q
  refine ⟨?_, ?_, ?_⟩
  · apply Nat.lt_pow_two_of_testBit
    intro q hq
    rw [hadd q, testBit_eq_false_of_lt_two_pow hi hq]
    have : q ∉ controls.map fun c => n - c - 1 := by
      intro hmm
      obtain ⟨c, hcm, rfl⟩ := List.mem_map.mp hmm
      have := (hv.2.1 c hcm).1
      have := hv.1
      omega
    simp [this]
  · rw [hadd, hbit]
    simp [target_notMem_mlist hv]
  · intro c hcm
    rw [hadd]
    have : (n - c - 1) ∈ controls.map fun c => n - c - 1 :=
      List.mem_map.mpr ⟨c, hcm, rfl⟩
    simp [this]

theorem pairBase_pair_lt {n t : Nat} {controls : List Nat} (ht : t < n)
    {j : Nat} (hj : pairBase n t controls j) :
    j + 2 ^ (n - t - 1) < 2 ^ n := by
  apply Nat.lt_pow_two_of_testBit
  intro q hq
  rw [testBit_add_two_pow_of_clear hj.2.1 q]
  have h1 : j.testBit q = false := testBit_eq_false_of_lt_two_pow hj.1 hq
  have h2 : q ≠ n - t - 1 := by omega
  simp [h1, h2]

theorem pairBase_decompose {n t : Nat} {controls : List Nat}
    (hv : validCall n t controls) {j : Nat} (hj : pairBase n t controls j) :
    ∃ i ∈ eligibleBases n t controls, i + cktot n controls = j := by
  have hxb : ∀ q, (j ^^^ cktot n controls).testBit q
      = xor (j.testBit q) (decide (q ∈ controls.map fun c => n - c - 1)) := by
    intro q
    rw [Nat.testBit_xor, cktot_testBit hv]
  have hmclear : ∀ p ∈ controls.map fun c => n - c - 1,
      (j ^^^ cktot n controls).testBit p = false := by
    intro p hp
    obtain ⟨c, hcm, rfl⟩ := List.mem_map.mp hp
    rw [hxb, hj.2.2 c hcm]
    simp [List.mem_map.mpr ⟨c, hcm, rfl⟩]
  have hilt : j ^^^ cktot n controls < 2 ^ n := by
    apply Nat.lt_pow_two_of_testBit
    intro q hq
    rw [hxb, testBit_eq_false_of_lt_two_pow hj.1 hq]
    have : q ∉ controls.map fun c => n - c - 1 := by
      intro hmm
      obtain ⟨c, hcm, rfl⟩ := List.mem_map.mp hmm
      have := (hv.2.1 c hcm).1
      omega
    simp [this]
  have hibit : (j ^^^ cktot n controls).testBit (n - t - 1) = false := by
    rw [hxb, hj.2.1]
    simp [target_notMem_mlist hv]
  have hiclear : controlsClear (controlKs n controls) (j ^^^ cktot n controls) = true :=
    (controlsClear_iff n controls _).mpr fun c hcm => hmclear _ (List.mem_map.mpr ⟨c, hcm, rfl⟩)
  refine ⟨j ^^^ cktot n controls, (mem_eligibleBases_iff hv _).mpr ⟨hilt, hibit, hiclear⟩, ?_⟩
  apply Nat.eq_of_testBit_eq
  intro q
  have hsum : cktot n controls = ((controls.map fun c => n - c - 1).map fun p => 2 ^ p).sum := by
    rw [cktot, controlKs_eq]
  have hstep := testBit_add_sum_two_pow _ (mlist_pairwise hv)
    (j ^^^ cktot n controls) hmclear q
  rw [← hsum] at hstep
  rw [hstep, hxb q]
  by_cases hq : q ∈ controls.map fun c => n - c - 1
  · have hjq : j.testBit q = true := by
      obtain ⟨c, hcm, hqe⟩ := List.mem_map.mp hq
      rw [← hqe]
      exact hj.2.2 c hcm
    simp [hq, hjq]
  · simp [hq]

theorem gateFold_apply {α : Type*} [CommRing α] (g0 g1 g2 g3 : α) (tk : Nat)
    (htk : 0 < tk) :
    ∀ (L : List Nat), L.Nodup → (∀ a ∈ L, ∀ b ∈ L, a ≠ b + tk) →
    ∀ (s : Nat → α) (j : Nat),
      (L.foldl (fun s i1 => applyPair g0 g1 g2 g3 tk i1 s) s) j =
        if j ∈ L then g0 * s j + g1 * s (j + tk)
        else if tk ≤ j ∧ (j - tk) ∈ L then g2 * s (j - tk) + g3 * s j
        else s j := by
  intro L
  induction L with
  | nil => intro _ _ s j; simp
  | cons a L ih =>
    intro hnd hdisj s j
    have hndL : L.Nodup := (List.nodup_cons.mp hnd).2
    have haL : a ∉ L := (List.nodup_cons.mp hnd).1
    have hdL : ∀ x ∈ L, ∀ y ∈ L, x ≠ y + tk := fun x hx y hy =>
      hdisj x (List.mem_cons_of_mem _ hx) y (List.mem_cons_of_mem _ hy)
    rw [List.foldl_cons, ih hndL hdL]
    by_cases hjL : j ∈ L
    · have hja : j ≠ a := fun h => haL (h ▸ hjL)
      have hjat : j ≠ a + tk :=
        hdisj j (List.mem_cons_of_mem _ hjL) a (List.mem_cons_self a L)
      have hatj : j + tk ≠ a := fun h =>
        (hdisj a (List.mem_cons_self a L) j (List.mem_cons_of_mem _ hjL)) h.symm
      have h1 : applyPair g0 g1 g2 g3 tk a s j = s j := by
        simp [applyPair, hja, hjat]
      have h2 : applyPair g0 g1 g2 g3 tk a s (j + tk) = s (j + tk) := by
        simp [applyPair, hatj, hja]
      rw [if_pos hjL, if_pos (List.mem_cons_of_mem a hjL), h1, h2]
    · by_cases hj2 : tk ≤ j ∧ (j - tk) ∈ L
      · obtain ⟨hjtk, hjmL⟩ := hj2
        have hjma : j - tk ≠ a := fun h => haL (h ▸ hjmL)
        have hjmat : j - tk ≠ a + tk :=
          hdisj (j - tk) (List.mem_cons_of_mem _ hjmL) a (List.mem_cons_self a L)
        have hja : j ≠ a := by
          intro h
          have := hdisj a (List.mem_cons_self a L) (j - tk) (List.mem_cons_of_mem _ hjmL)
          omega
        have hjat : j ≠ a + tk := by
          intro h
          have : j - tk = a := by omega
          exact haL (this ▸ hjmL)
        have h1 : applyPair g0 g1 g2 g3 tk a s (j - tk) = s (j - tk) := by
          simp [applyPair, hjma, hjmat]
        have h2 : applyPair g0 g1 g2 g3 tk a s j = s j := by
          simp [applyPair, hja, hjat]
        rw [if_neg hjL, if_pos (And.intro hjtk hjmL), h1, h2,
          if_neg (fun hm => (List.mem_cons.mp hm).elim hja hjL),
          if_pos (And.intro hjtk (List.mem_cons_of_mem a hjmL))]
      · by_cases hja : j = a
        · have h1 : applyPair g0 g1 g2 g3 tk a s j = g0 * s j + g1 * s (j + tk) := by
            simp [applyPair, hja]
          rw [if_neg hjL, if_neg hj2, h1,
            if_pos (by rw [hja]; exact List.mem_cons_self a L)]
        · by_cases hjat : j = a + tk
          · have hne : j ≠ a := hja
            have hsub : j - tk = a := by omega
            have hle : tk ≤ j := by omega
            have htk0 : tk ≠ 0 := by omega
            have h1 : applyPair g0 g1 g2 g3 tk a s j = g2 * s (j - tk) + g3 * s j := by
              rw [hsub]
              simp [applyPair, hja, hjat, htk0]
            have hnotL : ¬ (tk ≤ j ∧ j - tk ∈ L) := by
              rintro ⟨_, hm⟩
              rw [hsub] at hm
              exact haL hm
            rw [if_neg hjL, if_neg hnotL, h1,
              if_neg (fun hm => (List.mem_cons.mp hm).elim hja hjL),
              if_pos (And.intro hle (by rw [hsub]; exact List.mem_cons_self a L))]
          · have h1 : applyPair g0 g1 g2 g3 tk a s j = s j := by
              simp [applyPair, hja, hjat]
            have hnot2 : ¬ (tk ≤ j ∧ j - tk ∈ a :: L) := by
              rintro ⟨hle, hm⟩
              rcases List.mem_cons.mp hm with h | h
              · exact hjat (by omega)
              · exact hj2 ⟨hle, h⟩
            rw [if_neg hjL, if_neg hj2, h1,
              if_neg (fun hm => (List.mem_cons.mp hm).elim hja hjL), if_neg hnot2]

theorem gateLoop_eq_fold {α : Type*} [CommRing α] (g0 g1 g2 g3 : α)
    (tk ckt : Nat) (cks : List Nat) :
    ∀ (is : List Nat) (s : Nat → α),
      gateLoop g0 g1 g2 g3 tk ckt cks s is =
        ((is.filter (controlsClear cks)).map (fun i => i + ckt)).foldl
          (fun s i1 => applyPair g0 g1 g2 g3 tk i1 s) s := by
  intro is
  induction is with
  | nil => intro s; rfl
  | cons i is ih =>
    intro s
    rw [gateLoop, List.foldl_cons]
    by_cases hc : controlsClear cks i = true
    · rw [List.filter_cons_of_pos hc, List.map_cons, List.foldl_cons, if_pos hc]
      exact ih _
    · rw [List.filter_cons_of_neg (by simpa using hc), if_neg hc]
      exact ih _

theorem applyGate_eq_fold {α : Type*} [CommRing α] (n t : Nat) (g0 g1 g2 g3 : α)
    (controls : List Nat) (s : Nat → α) :
    applyGate n t g0 g1 g2 g3 controls s =
      ((eligibleBases n t controls).map (fun i => i + cktot n controls)).foldl
        (fun s i1 => applyPair g0 g1 g2 g3 (2 ^ (n - t - 1)) i1 s) s := by
  simp only [applyGate]
  rw [gateLoop_eq_fold]
  rfl

/-- Pointwise characterization of one `ApplyGateFunctor` call: an index that
is the lower (upper) member of an eligible pair receives the first (second)
row of the gate applied to the old pair, and every other index is
untouched. -/
theorem applyGate_apply {α : Type*} [CommRing α] {n t : Nat} {controls : List Nat}
    (hv : validCall n t controls) (g0 g1 g2 g3 : α) (s : Nat → α) (j : Nat) :
    applyGate n t g0 g1 g2 g3 controls s j =
      if pairBase n t controls j then
        g0 * s j + g1 * s (j + 2 ^ (n - t - 1))
      else if 2 ^ (n - t - 1) ≤ j ∧ pairBase n t controls (j - 2 ^ (n - t - 1)) then
        g2 * s (j - 2 ^ (n - t - 1)) + g3 * s j
      else s j := by
  have hmem : ∀ x, (x ∈ (eligibleBases n t controls).map (fun i => i + cktot n controls))
      ↔ pairBase n t controls x := by
    intro x
    rw [List.mem_map]
    constructor
    · rintro ⟨i, hi, rfl⟩
      rw [mem_eligibleBases_iff hv] at hi
      exact pairBase_add_cktot hv hi.1 hi.2.1 hi.2.2
    · intro hx
      obtain ⟨i, hi, hieq⟩ := pairBase_decompose hv hx
      exact ⟨i, hi, hieq⟩
  have hnd : ((eligibleBases n t controls).map (fun i => i + cktot n controls)).Nodup := by
    apply List.Nodup.map
    · intro x y h
      have h' : x + cktot n controls = y + cktot n controls := h
      omega
    · exact (skeletons_nodup _ _).filter _
  have hdisj : ∀ a ∈ (eligibleBases n t controls).map (fun i => i + cktot n controls),
      ∀ b ∈ (eligibleBases n t controls).map (fun i => i + cktot n controls),
      a ≠ b + 2 ^ (n - t - 1) := by
    intro a ha b hb h
    have hpa := (hmem a).mp ha
    have hpb := (hmem b).mp hb
    have hbt : (b + 2 ^ (n - t - 1)).testBit (n - t - 1) = true := by
      rw [testBit_add_two_pow_of_clear hpb.2.1]
      simp
    rw [← h, hpa.2.1] at hbt
    exact Bool.noConfusion hbt
  rw [applyGate_eq_fold, gateFold_apply g0 g1 g2 g3 _ (Nat.two_pow_pos _) _ hnd hdisj s j]
  simp only [hmem]

theorem gateLoop_congr {α : Type*} [CommRing α] (g0 g1 g2 g3 : α) (tk ckt : Nat)
    {cks cks' : List Nat} (h : ∀ i, controlsClear cks i = controlsClear cks' i) :
    ∀ (is : List Nat) (s : Nat → α),
      gateLoop g0 g1 g2 g3 tk ckt cks s is = gateLoop g0 g1 g2 g3 tk ckt cks' s is := by
  intro is
  induction is with
  | nil => intro s; rfl
  | cons i is ih =>
    intro s
    rw [gateLoop, gateLoop, List.foldl_cons, List.foldl_cons, h i]
    exact ih _

/-! ### The claims about ApplyGate -/

/-- Claim C1: for every eligible pair `(i1, i2)` differing only in the target
bit, with `i1`'s target bit clear and all control bits of `i1` set, the new
values at `i1` and `i2` are the two rows of the gate applied to the old pair
values. -/
theorem claim_C1 {α : Type*} [CommRing α] {n t : Nat} {controls : List Nat}
    (hv : validCall n t controls) (g0 g1 g2 g3 : α) (s : Nat → α)
    (i1 : Nat) (h1 : i1 < 2 ^ n) (hbit : i1.testBit (n - t - 1) = false)
    (hctrl : ∀ c ∈ controls, i1.testBit (n - c - 1) = true) :
    applyGate n t g0 g1 g2 g3 controls s i1
        = g0 * s i1 + g1 * s (i1 + 2 ^ (n - t - 1)) ∧
      applyGate n t g0 g1 g2 g3 controls s (i1 + 2 ^ (n - t - 1))
        = g2 * s i1 + g3 * s (i1 + 2 ^ (n - t - 1)) := by
  have hp : pairBase n t controls i1 := ⟨h1, hbit, hctrl⟩
  constructor
  · rw [applyGate_apply hv, if_pos hp]
  · have hbit2 : (i1 + 2 ^ (n - t - 1)).testBit (n - t - 1) = true := by
      rw [testBit_add_two_pow_of_clear hbit]
      simp
    have hnp : ¬ pairBase n t controls (i1 + 2 ^ (n - t - 1)) := by
      intro hq
      rw [hq.2.1] at hbit2
      exact Bool.noConfusion hbit2
    have hsub : i1 + 2 ^ (n - t - 1) - 2 ^ (n - t - 1) = i1 := by omega
    rw [applyGate_apply hv, if_neg hnp,
      if_pos (And.intro (Nat.le_add_left _ _) (by rw [hsub]; exact hp)), hsub]

theorem claim_C1_witness :
    validCall 3 2 [0] ∧ (4 : Nat) < 2 ^ 3 ∧ Nat.testBit 4 (3 - 2 - 1) = false ∧
      (∀ c ∈ [0], Nat.testBit 4 (3 - c - 1) = true) ∧
      (applyGate 3 2 (5 : ℤ) 6 7 8 [0] (fun j => (j : ℤ) + 1) 4
          = 5 * ((fun j => (j : ℤ) + 1) 4)
            + 6 * ((fun j => (j : ℤ) + 1) (4 + 2 ^ (3 - 2 - 1))) ∧
        applyGate 3 2 (5 : ℤ) 6 7 8 [0] (fun j => (j : ℤ) + 1) (4 + 2 ^ (3 - 2 - 1))
          = 7 * ((fun j => (j : ℤ) + 1) 4)
            + 8 * ((fun j => (j : ℤ) + 1) (4 + 2 ^ (3 - 2 - 1)))) :=
  ⟨by decide, by decide, by decide, by decide,
    claim_C1 (by decide) 5 6 7 8 (fun j => (j : ℤ) + 1) 4 (by decide) (by decide)
      (by decide)⟩

/-- Claim C6: with a non-empty control set, a pair whose control bits are not
all `1` is left unchanged at both members. -/
theorem claim_C6 {α : Type*} [CommRing α] {n t : Nat} {controls : List Nat}
    (hv : validCall n t controls) (hne : controls ≠ [])
    (g0 g1 g2 g3 : α) (s : Nat → α)
    (i1 : Nat) (h1 : i1 < 2 ^ n) (hbit : i1.testBit (n - t - 1) = false)
    (hctrl : ∃ c ∈ controls, i1.testBit (n - c - 1) = false) :
    applyGate n t g0 g1 g2 g3 controls s i1 = s i1 ∧
      applyGate n t g0 g1 g2 g3 controls s (i1 + 2 ^ (n - t - 1))
        = s (i1 + 2 ^ (n - t - 1)) := by
  obtain ⟨c0, hc0, hc0f⟩ := hctrl
  have hnp1 : ¬ pairBase n t controls i1 := by
    intro hp
    rw [hp.2.2 c0 hc0] at hc0f
    exact Bool.noConfusion hc0f
  have hnp2 : ¬ (2 ^ (n - t - 1) ≤ i1 ∧ pairBase n t controls (i1 - 2 ^ (n - t - 1))) := by
    rintro ⟨hle, hp⟩
    have hstep := testBit_add_two_pow_of_clear hp.2.1 (n - t - 1)
    have heq : i1 - 2 ^ (n - t - 1) + 2 ^ (n - t - 1) = i1 := by omega
    rw [heq, hbit] at hstep
    simp at hstep
  constructor
  · rw [applyGate_apply hv, if_neg hnp1, if_neg hnp2]
  · have hbit2 : (i1 + 2 ^ (n - t - 1)).testBit (n - t - 1) = true := by
      rw [testBit_add_two_pow_of_clear hbit]
      simp
    have hnp3 : ¬ pairBase n t controls (i1 + 2 ^ (n - t - 1)) := by
      intro hp
      rw [hp.2.1] at hbit2
      exact Bool.noConfusion hbit2
    have hsub : i1 + 2 ^ (n - t - 1) - 2 ^ (n - t - 1) = i1 := by omega
    have hnp4 : ¬ (2 ^ (n - t - 1) ≤ i1 + 2 ^ (n - t - 1) ∧
        pairBase n t controls (i1 + 2 ^ (n - t - 1) - 2 ^ (n - t - 1))) := by
      rintro ⟨_, hp⟩
      rw [hsub] at hp
      exact hnp1 hp
    rw [applyGate_apply hv, if_neg hnp3, if_neg hnp4]

theorem claim_C6_witness :
    validCall 3 2 [0] ∧ [0] ≠ ([] : List Nat) ∧ (0 : Nat) < 2 ^ 3 ∧
      Nat.testBit 0 (3 - 2 - 1) = false ∧
      (∃ c ∈ [0], Nat.testBit 0 (3 - c - 1) = false) ∧
      (applyGate 3 2 (5 : ℤ) 6 7 8 [0] (fun j => (j : ℤ) + 1) 0
          = (fun j => (j : ℤ) + 1) 0 ∧
        applyGate 3 2 (5 : ℤ) 6 7 8 [0] (fun j => (j : ℤ) + 1) (0 + 2 ^ (3 - 2 - 1))
          = (fun j => (j : ℤ) + 1) (0 + 2 ^ (3 - 2 - 1))) :=
  ⟨by decide, by decide, by decide, by decide, by decide,
    claim_C6 (by decide) (by decide) 5 6 7 8 (fun j => (j : ℤ) + 1) 0 (by decide)
      (by decide) (by decide)⟩

/-- Claim C8: permuting the control array does not change the result of an
`ApplyGateFunctor` call. -/
theorem claim_C8 {α : Type*} [CommRing α] {n t : Nat} {controls controls' : List Nat}
    (hv : validCall n t controls) (hperm : controls.Perm controls')
    (g0 g1 g2 g3 : α) (s : Nat → α) (j : Nat) :
    applyGate n t g0 g1 g2 g3 controls' s j = applyGate n t g0 g1 g2 g3 controls s j := by
  have hck : cktot n controls' = cktot n controls := by
    rw [cktot, cktot, controlKs, controlKs]
    exact ((hperm.map fun c => 2 ^ (n - c - 1)).sum_eq).symm
  have hclear : ∀ i, controlsClear (controlKs n controls') i
      = controlsClear (controlKs n controls) i := by
    intro i
    rw [Bool.eq_iff_iff, controlsClear_iff, controlsClear_iff]
    constructor
    · intro h c hc
      exact h c (hperm.mem_iff.mp hc)
    · intro h c hc
      exact h c (hperm.mem_iff.mpr hc)
  simp only [applyGate]
  rw [hck, gateLoop_congr g0 g1 g2 g3 _ _ hclear]

theorem claim_C8_witness :
    validCall 3 2 [0, 1] ∧ List.Perm [0, 1] [1, 0] ∧
      applyGate 3 2 (5 : ℤ) 6 7 8 [1, 0] (fun j => (j : ℤ) + 1) 6
        = applyGate 3 2 (5 : ℤ) 6 7 8 [0, 1] (fun j => (j : ℤ) + 1) 6 :=
  ⟨by decide, by decide,
    claim_C8 (by decide) (by decide) 5 6 7 8 (fun j => (j : ℤ) + 1) 6⟩

/-- Claim C10: all writes of a call are in bounds (`i1 < i2 < 2^n`) and the
pairs written by distinct eligible bases are disjoint. -/
theorem claim_C10 {n t : Nat} {controls : List Nat} (hv : validCall n t controls) :
    (∀ i ∈ eligibleBases n t controls,
        i + cktot n controls < i + cktot n controls + 2 ^ (n - t - 1) ∧
        i + cktot n controls + 2 ^ (n - t - 1) < 2 ^ n) ∧
      (∀ i ∈ eligibleBases n t controls, ∀ i' ∈ eligibleBases n t controls, i ≠ i' →
        i + cktot n controls ≠ i' + cktot n controls ∧
        i + cktot n controls ≠ i' + cktot n controls + 2 ^ (n - t - 1) ∧
        i + cktot n controls + 2 ^ (n - t - 1) ≠ i' + cktot n controls ∧
        i + cktot n controls + 2 ^ (n - t - 1)
          ≠ i' + cktot n controls + 2 ^ (n - t - 1)) := by
  have hbase : ∀ i ∈ eligibleBases n t controls,
      pairBase n t controls (i + cktot n controls) := by
    intro i hi
    rw [mem_eligibleBases_iff hv] at hi
    exact pairBase_add_cktot hv hi.1 hi.2.1 hi.2.2
  constructor
  · intro i hi
    have hlt := pairBase_pair_lt hv.1 (hbase i hi)
    have := Nat.two_pow_pos (n - t - 1)
    exact ⟨by omega, hlt⟩
  · intro i hi i' hi' hne
    have hp := hbase i hi
    have hp' := hbase i' hi'
    have hb : (i' + cktot n controls + 2 ^ (n - t - 1)).testBit (n - t - 1) = true := by
      rw [testBit_add_two_pow_of_clear hp'.2.1]
      simp
    have hb2 : (i + cktot n controls + 2 ^ (n - t - 1)).testBit (n - t - 1) = true := by
      rw [testBit_add_two_pow_of_clear hp.2.1]
      simp
    refine ⟨by omega, ?_, ?_, by omega⟩
    · intro h
      rw [← h, hp.2.1] at hb
      exact Bool.noConfusion hb
    · intro h
      rw [h, hp'.2.1] at hb2
      exact Bool.noConfusion hb2

theorem claim_C10_witness :
    validCall 3 2 [0] ∧
      ((∀ i ∈ eligibleBases 3 2 [0],
          i + cktot 3 [0] < i + cktot 3 [0] + 2 ^ (3 - 2 - 1) ∧
          i + cktot 3 [0] + 2 ^ (3 - 2 - 1) < 2 ^ 3) ∧
        (∀ i ∈ eligibleBases 3 2 [0], ∀ i' ∈ eligibleBases 3 2 [0], i ≠ i' →
          i + cktot 3 [0] ≠ i' + cktot 3 [0] ∧
          i + cktot 3 [0] ≠ i' + cktot 3 [0] + 2 ^ (3 - 2 - 1) ∧
          i + cktot 3 [0] + 2 ^ (3 - 2 - 1) ≠ i' + cktot 3 [0] ∧
          i + cktot 3 [0] + 2 ^ (3 - 2 - 1) ≠ i' + cktot 3 [0] + 2 ^ (3 - 2 - 1))) :=
  ⟨by decide, claim_C10 (by decide)⟩

/-! ### Unitarity over ℂ -/

/-- From `G * Gᴴ = 1` (row form) derive `Gᴴ * G = 1` (column form) for a 2×2
complex gate. -/
theorem gate_unitary_flip {g0 g1 g2 g3 : ℂ}
    (h00 : g0 * starRingEnd ℂ g0 + g1 * starRingEnd ℂ g1 = 1)
    (h01 : g0 * starRingEnd ℂ g2 + g1 * starRingEnd ℂ g3 = 0)
    (h10 : g2 * starRingEnd ℂ g0 + g3 * starRingEnd ℂ g1 = 0)
    (h11 : g2 * starRingEnd ℂ g2 + g3 * starRingEnd ℂ g3 = 1) :
    starRingEnd ℂ g0 * g0 + starRingEnd ℂ g2 * g2 = 1 ∧
      starRingEnd ℂ g0 * g1 + starRingEnd ℂ g2 * g3 = 0 ∧
      starRingEnd ℂ g1 * g0 + starRingEnd ℂ g3 * g2 = 0 ∧
      starRingEnd ℂ g1 * g1 + starRingEnd ℂ g3 * g3 = 1 := by
  have hM : (!![g0, g1; g2, g3] : Matrix (Fin 2) (Fin 2) ℂ)
      * Matrix.conjTranspose !![g0, g1; g2, g3] = 1 := by
    ext i j
    fin_cases i <;> fin_cases j <;>
      simp [Matrix.mul_apply, Fin.sum_univ_two, Matrix.conjTranspose_apply,
        Matrix.one_apply, Complex.star_def]
    · exact h00
    · exact h01
    · exact h10
    · exact h11
  have hM' := Matrix.ext_iff.mpr (Matrix.mul_eq_one_comm.mp hM)
  have e00 := hM' 0 0
  have e01 := hM' 0 1
  have e10 := hM' 1 0
  have e11 := hM' 1 1
  simp only [Matrix.mul_apply, Fin.sum_univ_two, Matrix.conjTranspose_apply,
    Matrix.one_apply, Complex.star_def, Matrix.cons_val_zero, Matrix.cons_val_one,
    Matrix.head_cons, Matrix.head_fin_const, if_true, if_false] at e00 e01 e10 e11
  refine ⟨by simpa using e00, by simpa using e01, by simpa using e10, by simpa using e11⟩

/-- Column unitarity makes the 2×2 transform preserve the summed squared
magnitudes of a pair. -/
theorem normSq_pair {g0 g1 g2 g3 : ℂ}
    (hc00 : starRingEnd ℂ g0 * g0 + starRingEnd ℂ g2 * g2 = 1)
    (hc01 : starRingEnd ℂ g0 * g1 + starRingEnd ℂ g2 * g3 = 0)
    (hc11 : starRingEnd ℂ g1 * g1 + starRingEnd ℂ g3 * g3 = 1) (A B : ℂ) :
    Complex.normSq (g0 * A + g1 * B) + Complex.normSq (g2 * A + g3 * B)
      = Complex.normSq A + Complex.normSq B := by
  have hc01c : g0 * starRingEnd ℂ g1 + g2 * starRingEnd ℂ g3 = 0 := by
    have := congrArg (starRingEnd ℂ) hc01
    simpa [map_add, map_mul, mul_comm] using this
  have key : ((Complex.normSq (g0 * A + g1 * B) : ℂ) + Complex.normSq (g2 * A + g3 * B))
      = (Complex.normSq A : ℂ) + Complex.normSq B := by
    rw [← Complex.mul_conj, ← Complex.mul_conj, ← Complex.mul_conj, ← Complex.mul_conj]
    simp only [map_add, map_mul]
    linear_combination (A * starRingEnd ℂ A) * hc00 + (B * starRingEnd ℂ B) * hc11
      + (B * starRingEnd ℂ A) * hc01 + (A * starRingEnd ℂ B) * hc01c
  exact_mod_cast key

theorem stateNorm_applyPair {g0 g1 g2 g3 : ℂ}
    (hc00 : starRingEnd ℂ g0 * g0 + starRingEnd ℂ g2 * g2 = 1)
    (hc01 : starRingEnd ℂ g0 * g1 + starRingEnd ℂ g2 * g3 = 0)
    (hc11 : starRingEnd ℂ g1 * g1 + starRingEnd ℂ g3 * g3 = 1)
    {tk a N : Nat} (htk : 0 < tk) (haN : a + tk < N) (s : Nat → ℂ) :
    stateNorm N (applyPair g0 g1 g2 g3 tk a s) = stateNorm N s := by
  have hne : a ≠ a + tk := by omega
  have hmemt : a + tk ∈ Finset.range N := Finset.mem_range.mpr haN
  have hmema : a ∈ (Finset.range N).erase (a + tk) :=
    Finset.mem_erase.mpr ⟨hne, Finset.mem_range.mpr (by omega)⟩
  have hFt : applyPair g0 g1 g2 g3 tk a s (a + tk) = g2 * s a + g3 * s (a + tk) := by
    simp [applyPair, hne.symm]
  have hFa : applyPair g0 g1 g2 g3 tk a s a = g0 * s a + g1 * s (a + tk) := by
    simp [applyPair]
  rw [stateNorm, stateNorm, ← Finset.add_sum_erase _ _ hmemt,
    ← Finset.add_sum_erase _ _ hmemt, ← Finset.add_sum_erase _ _ hmema,
    ← Finset.add_sum_erase _ _ hmema, hFt, hFa]
  have hsum : ∑ j ∈ ((Finset.range N).erase (a + tk)).erase a,
      Complex.normSq (applyPair g0 g1 g2 g3 tk a s j)
      = ∑ j ∈ ((Finset.range N).erase (a + tk)).erase a, Complex.normSq (s j) := by
    refine Finset.sum_congr rfl ?_
    intro j hj
    have hja := (Finset.mem_erase.mp hj).1
    have hjat := (Finset.mem_erase.mp (Finset.mem_erase.mp hj).2).1
    simp [applyPair, hja, hjat]
  rw [hsum]
  have hkey := normSq_pair hc00 hc01 hc11 (s a) (s (a + tk))
  linarith

theorem stateNorm_fold {g0 g1 g2 g3 : ℂ}
    (hc00 : starRingEnd ℂ g0 * g0 + starRingEnd ℂ g2 * g2 = 1)
    (hc01 : starRingEnd ℂ g0 * g1 + starRingEnd ℂ g2 * g3 = 0)
    (hc11 : starRingEnd ℂ g1 * g1 + starRingEnd ℂ g3 * g3 = 1)
    {tk N : Nat} (htk : 0 < tk) :
    ∀ (L : List Nat), (∀ a ∈ L, a + tk < N) → ∀ (s : Nat → ℂ),
      stateNorm N (L.foldl (fun s i1 => applyPair g0 g1 g2 g3 tk i1 s) s)
        = stateNorm N s := by
  intro L
  induction L with
  | nil => intro _ s; rfl
  | cons a L ih =>
    intro hb s
    rw [List.foldl_cons, ih (fun x hx => hb x (List.mem_cons_of_mem _ hx)),
      stateNorm_applyPair hc00 hc01 hc11 htk (hb a (List.mem_cons_self a L)) s]

/-- Claim C4: the total squared-magnitude norm of the state over the `2^n`
amplitudes is invariant under any `ApplyGateFunctor` call with a unitary
gate (`G * Gᴴ = 1`, stated entrywise). -/
theorem claim_C4 {n t : Nat} {controls : List Nat} (hv : validCall n t controls)
    (g0 g1 g2 g3 : ℂ)
    (h00 : g0 * starRingEnd ℂ g0 + g1 * starRingEnd ℂ g1 = 1)
    (h01 : g0 * starRingEnd ℂ g2 + g1 * starRingEnd ℂ g3 = 0)
    (h10 : g2 * starRingEnd ℂ g0 + g3 * starRingEnd ℂ g1 = 0)
    (h11 : g2 * starRingEnd ℂ g2 + g3 * starRingEnd ℂ g3 = 1)
    (s : Nat → ℂ) :
    stateNorm (2 ^ n) (applyGate n t g0 g1 g2 g3 controls s)
      = stateNorm (2 ^ n) s := by
  have hflip := gate_unitary_flip h00 h01 h10 h11
  rw [applyGate_eq_fold]
  apply stateNorm_fold hflip.1 hflip.2.1 hflip.2.2.2 (Nat.two_pow_pos _)
  intro a ha
  obtain ⟨i, hi, rfl⟩ := List.mem_map.mp ha
  rw [mem_eligibleBases_iff hv] at hi
  exact pairBase_pair_lt hv.1 (pairBase_add_cktot hv hi.1 hi.2.1 hi.2.2)

theorem claim_C4_witness :
    validCall 1 0 [] ∧
      ((0 : ℂ) * starRingEnd ℂ 0 + 1 * starRingEnd ℂ 1 = 1 ∧
        (0 : ℂ) * starRingEnd ℂ 1 + 1 * starRingEnd ℂ 0 = 0 ∧
        (1 : ℂ) * starRingEnd ℂ 0 + 0 * starRingEnd ℂ 1 = 0 ∧
        (1 : ℂ) * starRingEnd ℂ 1 + 0 * starRingEnd ℂ 0 = 1) ∧
      stateNorm (2 ^ 1) (applyGate 1 0 (0 : ℂ) 1 1 0 [] fun j => (j : ℂ))
        = stateNorm (2 ^ 1) fun j => (j : ℂ) :=
  ⟨by decide, ⟨by simp, by simp, by simp, by simp⟩,
    claim_C4 (by decide) 0 1 1 0 (by simp) (by simp) (by simp) (by simp)
      fun j => (j : ℂ)⟩

/-- Claim C7: applying a unitary gate and then its conjugate-transpose, with
the same target and controls, restores every amplitude exactly. -/
theorem claim_C7 {n t : Nat} {controls : List Nat} (hv : validCall n t controls)
    (g0 g1 g2 g3 : ℂ)
    (h00 : g0 * starRingEnd ℂ g0 + g1 * starRingEnd ℂ g1 = 1)
    (h01 : g0 * starRingEnd ℂ g2 + g1 * starRingEnd ℂ g3 = 0)
    (h10 : g2 * starRingEnd ℂ g0 + g3 * starRingEnd ℂ g1 = 0)
    (h11 : g2 * starRingEnd ℂ g2 + g3 * starRingEnd ℂ g3 = 1)
    (s : Nat → ℂ) (j : Nat) :
    applyGate n t (starRingEnd ℂ g0) (starRingEnd ℂ g2) (starRingEnd ℂ g1)
        (starRingEnd ℂ g3) controls (applyGate n t g0 g1 g2 g3 controls s) j
      = s j := by
  have hflip := gate_unitary_flip h00 h01 h10 h11
  have hψ := applyGate_apply hv g0 g1 g2 g3 s
  rw [applyGate_apply hv]
  by_cases hp : pairBase n t controls j
  · have hbit2 : (j + 2 ^ (n - t - 1)).testBit (n - t - 1) = true := by
      rw [testBit_add_two_pow_of_clear hp.2.1]
      simp
    have hnp : ¬ pairBase n t controls (j + 2 ^ (n - t - 1)) := by
      intro hw
      rw [hw.2.1] at hbit2
      exact Bool.noConfusion hbit2
    have hsub : j + 2 ^ (n - t - 1) - 2 ^ (n - t - 1) = j := by omega
    rw [if_pos hp, hψ j, if_pos hp, hψ (j + 2 ^ (n - t - 1)), if_neg hnp,
      if_pos (And.intro (Nat.le_add_left _ _) (by rw [hsub]; exact hp)), hsub]
    linear_combination (s j) * hflip.1 + (s (j + 2 ^ (n - t - 1))) * hflip.2.1
  · by_cases hq : 2 ^ (n - t - 1) ≤ j ∧ pairBase n t controls (j - 2 ^ (n - t - 1))
    · obtain ⟨hle, hpb⟩ := hq
      have hsub : j - 2 ^ (n - t - 1) + 2 ^ (n - t - 1) = j := by omega
      rw [if_neg hp, if_pos (And.intro hle hpb), hψ (j - 2 ^ (n - t - 1)), if_pos hpb,
        hψ j, if_neg hp, if_pos (And.intro hle hpb), hsub]
      linear_combination (s (j - 2 ^ (n - t - 1))) * hflip.2.2.1 + (s j) * hflip.2.2.2
    · rw [if_neg hp, if_neg hq, hψ j, if_neg hp, if_neg hq]

theorem claim_C7_witness :
    validCall 1 0 [] ∧
      ((0 : ℂ) * starRingEnd ℂ 0 + 1 * starRingEnd ℂ 1 = 1 ∧
        (0 : ℂ) * starRingEnd ℂ 1 + 1 * starRingEnd ℂ 0 = 0 ∧
        (1 : ℂ) * starRingEnd ℂ 0 + 0 * starRingEnd ℂ 1 = 0 ∧
        (1 : ℂ) * starRingEnd ℂ 1 + 0 * starRingEnd ℂ 0 = 1) ∧
      applyGate 1 0 (starRingEnd ℂ 0) (starRingEnd ℂ 1) (starRingEnd ℂ 1)
          (starRingEnd ℂ 0) [] (applyGate 1 0 (0 : ℂ) 1 1 0 [] fun j => (j : ℂ)) 1
        = (1 : ℂ) :=
  ⟨by decide, ⟨by simp, by simp, by simp, by simp⟩, by
    have h := claim_C7 (show validCall 1 0 [] by decide) 0 1 1 0
      (by simp) (by simp) (by simp) (by simp) (fun j => (j : ℂ)) 1
    simpa using h⟩

/-! ### The claims about TransposeState -/

theorem foldl_range_sum (e : Nat → Nat) (c : Nat → Prop) [DecidablePred c] :
    ∀ (n : Nat) (x : Nat),
      (List.range n).foldl (fun k q => if c q then k + e q else k) x
        = x + ∑ q ∈ Finset.range n, if c q then e q else 0 := by
  intro n
  induction n with
  | zero => intro x; simp
  | succ n ih =>
    intro x
    rw [List.range_succ, List.foldl_append, ih x, List.foldl_cons, List.foldl_nil,
      Finset.sum_range_succ]
    by_cases hc : c n
    · rw [if_pos hc, if_pos hc]
      omega
    · rw [if_neg hc, if_neg hc]
      omega

theorem transposeK_eq_sum (n : Nat) (order : Nat → Nat) (g : Nat) :
    transposeK n order g
      = ∑ q ∈ Finset.range n, if g.testBit q then qubitExponents n order q else 0 := by
  have hcond : ∀ q : Nat, ((g >>> q) % 2 = 1) ↔ g.testBit q = true := by
    intro q
    rw [Nat.testBit_to_div_mod, Nat.shiftRight_eq_div_pow]
    simp
  rw [transposeK, foldl_range_sum]
  simp only [hcond, Nat.zero_add]

/-- Claim C2: output cell `g` of `TransposeStateFunctor` receives
`state[k / npiece][k % npiece]` where `k` sums `2^(n - qubit_order[n-q-1] - 1)`
over the bits `q` set in `g`. -/
theorem claim_C2 {α : Type*} (n ndev : Nat) (order : Nat → Nat)
    (state : Nat → Nat → α) (g : Nat) (hg : g < 2 ^ n) :
    transposeState n ndev order state g
      = state
          ((∑ q ∈ Finset.range n,
              if g.testBit q then 2 ^ (n - order (n - q - 1) - 1) else 0) / (2 ^ n / ndev))
          ((∑ q ∈ Finset.range n,
              if g.testBit q then 2 ^ (n - order (n - q - 1) - 1) else 0) % (2 ^ n / ndev)) := by
  simp only [transposeState, transposeK_eq_sum, qubitExponents]

theorem claim_C2_witness :
    (3 : Nat) < 2 ^ 2 ∧
      transposeState 2 2 (fun q => q) (fun p o => (2 * p + o : ℤ)) 3
        = (fun p o => (2 * p + o : ℤ))
            ((∑ q ∈ Finset.range 2,
                if Nat.testBit 3 q then 2 ^ (2 - (fun q => q) (2 - q - 1) - 1) else 0)
              / (2 ^ 2 / 2))
            ((∑ q ∈ Finset.range 2,
                if Nat.testBit 3 q then 2 ^ (2 - (fun q => q) (2 - q - 1) - 1) else 0)
              % (2 ^ 2 / 2)) :=
  ⟨by decide, claim_C2 2 2 (fun q => q) (fun p o => (2 * p + o : ℤ)) 3 (by decide)⟩

/-! ### The claims about SwapPieces -/

theorem swapIndex_eq (m g : Nat) :
    swapIndex m g = g / 2 ^ m * 2 ^ (m + 1) + g % 2 ^ m := by
  rw [swapIndex, Nat.shiftRight_eq_div_pow, Nat.shiftLeft_eq,
    Nat.and_pow_two_sub_one_eq_mod]

theorem swapIndex_lt {n m : Nat} (hmn : m + 1 ≤ n) {g : Nat} (hg : g < 2 ^ (n - 1)) :
    swapIndex m g + 2 ^ m < 2 ^ n := by
  rw [swapIndex_eq]
  have hdiv : g / 2 ^ m < 2 ^ (n - 1 - m) := by
    rw [Nat.div_lt_iff_lt_mul (Nat.two_pow_pos m)]
    calc g < 2 ^ (n - 1) := hg
      _ = 2 ^ (n - 1 - m) * 2 ^ m := by rw [← pow_add]; congr 1; omega
  have hmod : g % 2 ^ m < 2 ^ m := Nat.mod_lt _ (Nat.two_pow_pos m)
  have hbound : g / 2 ^ m * 2 ^ (m + 1) + 2 ^ (m + 1) ≤ 2 ^ n := by
    have h1 : g / 2 ^ m * 2 ^ (m + 1) + 2 ^ (m + 1)
        = (g / 2 ^ m + 1) * 2 ^ (m + 1) := by ring
    rw [h1]
    calc (g / 2 ^ m + 1) * 2 ^ (m + 1)
        ≤ 2 ^ (n - 1 - m) * 2 ^ (m + 1) := Nat.mul_le_mul_right _ (by omega)
      _ = 2 ^ n := by rw [← pow_add]; congr 1; omega
  have hp : 2 ^ (m + 1) = 2 ^ m * 2 := pow_succ 2 m
  omega

theorem swapIndex_testBit (m g : Nat) : (swapIndex m g).testBit m = false := by
  rw [swapIndex_eq]
  have hr : g % 2 ^ m < 2 ^ (m + 1) := by
    have h1 := Nat.mod_lt g (Nat.two_pow_pos m)
    have h2 : (2 : Nat) ^ (m + 1) = 2 ^ m * 2 := pow_succ 2 m
    omega
  rw [show g / 2 ^ m * 2 ^ (m + 1) = 2 ^ (m + 1) * (g / 2 ^ m) by ring,
    Nat.testBit_mul_pow_two_add _ hr]
  simp [Nat.testBit_lt_two_pow (Nat.mod_lt g (Nat.two_pow_pos m))]

theorem swapIndex_divmod (m g : Nat) :
    swapIndex m g / 2 ^ (m + 1) = g / 2 ^ m ∧
      swapIndex m g % 2 ^ (m + 1) = g % 2 ^ m := by
  rw [swapIndex_eq]
  have hr : g % 2 ^ m < 2 ^ (m + 1) := by
    have h1 := Nat.mod_lt g (Nat.two_pow_pos m)
    have h2 : (2 : Nat) ^ (m + 1) = 2 ^ m * 2 := pow_succ 2 m
    omega
  exact (Nat.div_mod_unique (Nat.two_pow_pos (m + 1))).mpr ⟨by ring, hr⟩

theorem swapIndex_inj (m : Nat) {g g' : Nat} (h : swapIndex m g = swapIndex m g') :
    g = g' := by
  have k1 := swapIndex_divmod m g
  have k2 := swapIndex_divmod m g'
  rw [h] at k1
  have hd : g / 2 ^ m = g' / 2 ^ m := by rw [← k1.1, k2.1]
  have hmod : g % 2 ^ m = g' % 2 ^ m := by rw [← k1.2, k2.2]
  have hrec : 2 ^ m * (g / 2 ^ m) + g % 2 ^ m = 2 ^ m * (g' / 2 ^ m) + g' % 2 ^ m := by
    rw [hd, hmod]
  rw [Nat.div_add_mod, Nat.div_add_mod] at hrec
  exact hrec

theorem swapIndex_surj {n m : Nat} (hmn : m + 1 ≤ n) {j : Nat} (hj : j < 2 ^ n)
    (hbit : j.testBit m = false) :
    ∃ g, g < 2 ^ (n - 1) ∧ swapIndex m g = j := by
  refine ⟨j / 2 ^ (m + 1) * 2 ^ m + j % 2 ^ m, ?_, ?_⟩
  · have hdiv : j / 2 ^ (m + 1) < 2 ^ (n - m - 1) := by
      rw [Nat.div_lt_iff_lt_mul (Nat.two_pow_pos (m + 1))]
      calc j < 2 ^ n := hj
        _ = 2 ^ (n - m - 1) * 2 ^ (m + 1) := by rw [← pow_add]; congr 1; omega
    have hmod : j % 2 ^ m < 2 ^ m := Nat.mod_lt _ (Nat.two_pow_pos m)
    calc j / 2 ^ (m + 1) * 2 ^ m + j % 2 ^ m
        < j / 2 ^ (m + 1) * 2 ^ m + 2 ^ m := by omega
      _ = (j / 2 ^ (m + 1) + 1) * 2 ^ m := by ring
      _ ≤ 2 ^ (n - m - 1) * 2 ^ m := Nat.mul_le_mul_right _ (by omega)
      _ = 2 ^ (n - 1) := by rw [← pow_add]; congr 1; omega
  · have hr : j % 2 ^ m < 2 ^ m := Nat.mod_lt _ (Nat.two_pow_pos m)
    have hdm : (j / 2 ^ (m + 1) * 2 ^ m + j % 2 ^ m) / 2 ^ m = j / 2 ^ (m + 1) ∧
        (j / 2 ^ (m + 1) * 2 ^ m + j % 2 ^ m) % 2 ^ m = j % 2 ^ m :=
      (Nat.div_mod_unique (Nat.two_pow_pos m)).mpr ⟨by ring, hr⟩
    rw [swapIndex_eq, hdm.1, hdm.2]
    have hmm : j % 2 ^ (m + 1) = j % 2 ^ m := mod_two_pow_succ_of_clear hbit
    have := Nat.div_add_mod j (2 ^ (m + 1))
    have hcomm : j / 2 ^ (m + 1) * 2 ^ (m + 1) = 2 ^ (m + 1) * (j / 2 ^ (m + 1)) := by ring
    omega

theorem add_two_pow_lt {x n m : Nat} (hm : m < n) (hx : x < 2 ^ n)
    (hbit : x.testBit m = false) : x + 2 ^ m < 2 ^ n := by
  apply Nat.lt_pow_two_of_testBit
  intro q hq
  rw [testBit_add_two_pow_of_clear hbit q]
  have h1 : x.testBit q = false := testBit_eq_false_of_lt_two_pow hx hq
  have h2 : q ≠ m := by omega
  simp [h1, h2]

theorem swapPieces_eq_fold {α : Type*} (n ng : Nat) (p0 p1 : Nat → α) :
    swapPieces n ng p0 p1 =
      ((List.range (2 ^ (n - 1))).map (swapIndex (n - ng - 1))).foldl
        (fun p i => swapStep (2 ^ (n - ng - 1)) i p) (p0, p1) := by
  rw [swapPieces, List.foldl_map]

theorem swapFold_apply {α : Type*} (tk : Nat) :
    ∀ (L : List Nat), L.Nodup → ∀ (p : (Nat → α) × (Nat → α)) (j : Nat),
      ((L.foldl (fun p i => swapStep tk i p) p).1 j
          = if ∃ i ∈ L, j = i + tk then p.2 (j - tk) else p.1 j) ∧
        ((L.foldl (fun p i => swapStep tk i p) p).2 j
          = if j ∈ L then p.1 (j + tk) else p.2 j) := by
  intro L
  induction L with
  | nil => intro _ p j; simp
  | cons a L ih =>
    intro hnd p j
    have hndL : L.Nodup := (List.nodup_cons.mp hnd).2
    have haL : a ∉ L := (List.nodup_cons.mp hnd).1
    rw [List.foldl_cons]
    obtain ⟨ih1, ih2⟩ := ih hndL (swapStep tk a p) j
    constructor
    · rw [ih1]
      by_cases hex : ∃ i ∈ L, j = i + tk
      · obtain ⟨i, hiL, rfl⟩ := hex
        have hia : i ≠ a := fun h => haL (h ▸ hiL)
        have hsub : i + tk - tk = i := by omega
        rw [if_pos ⟨i, hiL, rfl⟩, if_pos ⟨i, List.mem_cons_of_mem _ hiL, rfl⟩, hsub]
        simp [swapStep, hia]
      · by_cases hja : j = a + tk
        · have hsub : j - tk = a := by omega
          rw [if_neg hex, if_pos ⟨a, List.mem_cons_self a L, hja⟩, hsub]
          simp [swapStep, hja]
        · have hnex : ¬ ∃ i ∈ a :: L, j = i + tk := by
            rintro ⟨i, hi, rfl⟩
            rcases List.mem_cons.mp hi with h | h
            · exact hja (by rw [h])
            · exact hex ⟨i, h, rfl⟩
          rw [if_neg hex, if_neg hnex]
          simp [swapStep, hja]
    · rw [ih2]
      by_cases hjL : j ∈ L
      · have hja : j ≠ a := fun h => haL (h ▸ hjL)
        rw [if_pos hjL, if_pos (List.mem_cons_of_mem a hjL)]
        have hne : j + tk ≠ a + tk := by omega
        simp [swapStep, hne]
      · by_cases hja : j = a
        · rw [if_neg hjL, if_pos (by rw [hja]; exact List.mem_cons_self a L)]
          simp [swapStep, hja]
        · rw [if_neg hjL, if_neg (fun hm => (List.mem_cons.mp hm).elim hja hjL)]
          simp [swapStep, hja]

/-- Pointwise characterization of `SwapPiecesFunctor`: with `m = n - ng - 1`
and `tk = 2^m`, the upper half of `piece0` (indices with bit `m` set) receives
the lower half of `piece1` and vice versa; all other cells are untouched. -/
theorem swapPieces_apply {α : Type*} {n ng : Nat} (hng : ng < n)
    (p0 p1 : Nat → α) (j : Nat) :
    ((swapPieces n ng p0 p1).1 j
        = if j < 2 ^ n ∧ j.testBit (n - ng - 1) = true
          then p1 (j - 2 ^ (n - ng - 1)) else p0 j) ∧
      ((swapPieces n ng p0 p1).2 j
        = if j < 2 ^ n ∧ j.testBit (n - ng - 1) = false
          then p0 (j + 2 ^ (n - ng - 1)) else p1 j) := by
  have hmn : (n - ng - 1) + 1 ≤ n := by omega
  have hnodup : ((List.range (2 ^ (n - 1))).map (swapIndex (n - ng - 1))).Nodup :=
    (List.nodup_range _).map fun x y h => swapIndex_inj _ h
  have hfold := swapFold_apply (2 ^ (n - ng - 1)) _ hnodup
    ((p0, p1) : (Nat → α) × (Nat → α)) j
  rw [swapPieces_eq_fold]
  have hmem1 : (∃ i ∈ (List.range (2 ^ (n - 1))).map (swapIndex (n - ng - 1)),
      j = i + 2 ^ (n - ng - 1)) ↔ (j < 2 ^ n ∧ j.testBit (n - ng - 1) = true) := by
    constructor
    · rintro ⟨i, hi, rfl⟩
      obtain ⟨g, hg, rfl⟩ := List.mem_map.mp hi
      rw [List.mem_range] at hg
      refine ⟨swapIndex_lt hmn hg, ?_⟩
      rw [testBit_add_two_pow_of_clear (swapIndex_testBit _ _)]
      simp
    · rintro ⟨hj, hbit⟩
      have hd2 := Nat.two_pow_pos (n - ng - 1)
      have hge : 2 ^ (n - ng - 1) ≤ j := by
        by_contra hlt
        rw [Nat.testBit_lt_two_pow (by omega)] at hbit
        exact Bool.noConfusion hbit
      have heq : 2 ^ (n - ng - 1) + (j - 2 ^ (n - ng - 1)) = j := by omega
      have hlow : (j - 2 ^ (n - ng - 1)).testBit (n - ng - 1) = false := by
        have := Nat.testBit_two_pow_add_eq (j - 2 ^ (n - ng - 1)) (n - ng - 1)
        rw [heq, hbit] at this
        cases hb : (j - 2 ^ (n - ng - 1)).testBit (n - ng - 1)
        · rfl
        · rw [hb] at this
          simp at this
      obtain ⟨g, hg, hgi⟩ := swapIndex_surj hmn (by omega : j - 2 ^ (n - ng - 1) < 2 ^ n) hlow
      refine ⟨swapIndex (n - ng - 1) g,
        List.mem_map.mpr ⟨g, List.mem_range.mpr hg, rfl⟩, ?_⟩
      rw [hgi]
      omega
  have hmem2 : (j ∈ (List.range (2 ^ (n - 1))).map (swapIndex (n - ng - 1)))
      ↔ (j < 2 ^ n ∧ j.testBit (n - ng - 1) = false) := by
    constructor
    · intro hj
      obtain ⟨g, hg, rfl⟩ := List.mem_map.mp hj
      rw [List.mem_range] at hg
      have h1 := swapIndex_lt hmn hg
      have h2 := Nat.two_pow_pos (n - ng - 1)
      exact ⟨by omega, swapIndex_testBit _ _⟩
    · rintro ⟨hj, hbit⟩
      obtain ⟨g, hg, hgi⟩ := swapIndex_surj hmn hj hbit
      exact List.mem_map.mpr ⟨g, List.mem_range.mpr hg, hgi⟩
  constructor
  · rw [hfold.1]
    by_cases h : j < 2 ^ n ∧ j.testBit (n - ng - 1) = true
    · rw [if_pos (hmem1.mpr h), if_pos h]
    · rw [if_neg (fun hx => h (hmem1.mp hx)), if_neg h]
  · rw [hfold.2]
    by_cases h : j < 2 ^ n ∧ j.testBit (n - ng - 1) = false
    · rw [if_pos (hmem2.mpr h), if_pos h]
    · rw [if_neg (fun hx => h (hmem2.mp hx)), if_neg h]

/-- Counterexample to claim C3 as stated: with `nqubits = 1` and
`new_global = 0`, the loop iterates over `g = 0` (so `0 < 2^(n-1)` holds) and
accesses `piece0[i + tk]` at index `swapIndex 0 0 + 2^0 = 1`, which is not
below the claimed bound `2^(n-1) = 1`. -/
theorem claim_C3_counterexample :
    (0 : Nat) < 2 ^ (1 - 1) ∧
      ¬ (swapIndex (1 - 0 - 1) 0 + 2 ^ (1 - 0 - 1) < 2 ^ (1 - 1)) := by
  decide

/-- Claim C3 (amended): every array access of `SwapPiecesFunctor` — at
`piece1[i]` and `piece0[i + tk]` for `i = swapIndex m g`, `g < 2^(n-1)` — has
index strictly below `2^n` (the pieces hold `2^nqubits` amplitudes, not
`2^(nqubits-1)` as the claim's bound would require). -/
theorem claim_C3 {n ng : Nat} (hng : ng < n) (g : Nat) (hg : g < 2 ^ (n - 1)) :
    swapIndex (n - ng - 1) g < 2 ^ n ∧
      swapIndex (n - ng - 1) g + 2 ^ (n - ng - 1) < 2 ^ n := by
  have hmn : (n - ng - 1) + 1 ≤ n := by omega
  have h1 := swapIndex_lt hmn hg
  have h2 := Nat.two_pow_pos (n - ng - 1)
  exact ⟨by omega, h1⟩

theorem claim_C3_witness :
    (0 : Nat) < 1 ∧ (0 : Nat) < 2 ^ (1 - 1) ∧
      (swapIndex (1 - 0 - 1) 0 < 2 ^ 1 ∧
        swapIndex (1 - 0 - 1) 0 + 2 ^ (1 - 0 - 1) < 2 ^ 1) :=
  ⟨by decide, by decide, claim_C3 (by decide) 0 (by decide)⟩

/-- Claim C5: applying `SwapPiecesFunctor` twice with the same `new_global`
restores both pieces exactly. -/
theorem claim_C5 {α : Type*} {n ng : Nat} (hng : ng < n) (p0 p1 : Nat → α) (j : Nat) :
    (swapPieces n ng (swapPieces n ng p0 p1).1 (swapPieces n ng p0 p1).2).1 j = p0 j ∧
      (swapPieces n ng (swapPieces n ng p0 p1).1 (swapPieces n ng p0 p1).2).2 j
        = p1 j := by
  have hd := Nat.two_pow_pos (n - ng - 1)
  have hout := swapPieces_apply hng (swapPieces n ng p0 p1).1 (swapPieces n ng p0 p1).2 j
  constructor
  · rw [hout.1]
    by_cases h : j < 2 ^ n ∧ j.testBit (n - ng - 1) = true
    · rw [if_pos h]
      have hge : 2 ^ (n - ng - 1) ≤ j := by
        by_contra hlt
        rw [Nat.testBit_lt_two_pow (by omega)] at h
        exact Bool.noConfusion h.2
      have heq : 2 ^ (n - ng - 1) + (j - 2 ^ (n - ng - 1)) = j := by omega
      have hlow : (j - 2 ^ (n - ng - 1)).testBit (n - ng - 1) = false := by
        have hb := Nat.testBit_two_pow_add_eq (j - 2 ^ (n - ng - 1)) (n - ng - 1)
        rw [heq, h.2] at hb
        cases hc : (j - 2 ^ (n - ng - 1)).testBit (n - ng - 1)
        · rfl
        · rw [hc] at hb
          simp at hb
      have hin := (swapPieces_apply hng p0 p1 (j - 2 ^ (n - ng - 1))).2
      rw [hin, if_pos ⟨by omega, hlow⟩]
      congr 1
      omega
    · rw [if_neg h]
      have hin := (swapPieces_apply hng p0 p1 j).1
      rw [hin, if_neg h]
  · rw [hout.2]
    by_cases h : j < 2 ^ n ∧ j.testBit (n - ng - 1) = false
    · rw [if_pos h]
      have hlt : j + 2 ^ (n - ng - 1) < 2 ^ n := add_two_pow_lt (by omega) h.1 h.2
      have hbit : (j + 2 ^ (n - ng - 1)).testBit (n - ng - 1) = true := by
        rw [testBit_add_two_pow_of_clear h.2]
        simp
      have hin := (swapPieces_apply hng p0 p1 (j + 2 ^ (n - ng - 1))).1
      rw [hin, if_pos ⟨hlt, hbit⟩]
      congr 1
      omega
    · rw [if_neg h]
      have hin := (swapPieces_apply hng p0 p1 j).2
      rw [hin, if_neg h]

theorem claim_C5_witness :
    (0 : Nat) < 2 ∧
      ((swapPieces 2 0 (swapPieces 2 0 (fun j => (j : ℤ)) fun j => (j : ℤ) + 10).1
          (swapPieces 2 0 (fun j => (j : ℤ)) fun j => (j : ℤ) + 10).2).1 1
        = (fun j => (j : ℤ)) 1 ∧
      (swapPieces 2 0 (swapPieces 2 0 (fun j => (j : ℤ)) fun j => (j : ℤ) + 10).1
          (swapPieces 2 0 (fun j => (j : ℤ)) fun j => (j : ℤ) + 10).2).2 1
        = (fun j => (j : ℤ) + 10) 1) :=
  ⟨by decide, claim_C5 (by decide) (fun j => (j : ℤ)) (fun j => (j : ℤ) + 10) 1⟩

/-! ### The claim about the device guard -/

/-- Claim C9: when the selected device is the GPU, each of the three Compute
methods returns the `Unimplemented` error of its `OP_REQUIRES` guard; the
functor is never invoked, so no state is computed or returned. -/
theorem claim_C9 {α : Type*} [CommRing α] (n t ndev ng : Nat) (g0 g1 g2 g3 : α)
    (controls : List Nat) (s : Nat → α) (order : Nat → Nat) (st : Nat → Nat → α)
    (p0 p1 : Nat → α) :
    applyGateOpCompute Device.gpu n t g0 g1 g2 g3 controls s
        = Except.error "ApplyGate operator not implemented for GPU." ∧
      transposeStateOpCompute Device.gpu n ndev order st
        = Except.error "TransposeStateOp operator not implemented for GPU." ∧
      swapPiecesOpCompute Device.gpu n ng p0 p1
        = Except.error "SwapPiecesOp operator not implemented for GPU." :=
  ⟨rfl, rfl, rfl⟩

/-! Sanity checks against the scenarios of the specification. -/

example :
    (fun j => applyGate 2 1 (0 : ℤ) 1 1 0 [] (fun j => if j = 0 then 1 else 0) j) 1 = 1 := by
  decide

example :
    applyGate 3 2 (0 : ℤ) 1 1 0 [0] (fun j => if j = 6 then 1 else 0) 7 = 1 := by
  decide

example :
    applyGate 3 2 (0 : ℤ) 1 1 0 [0] (fun j => if j = 6 then 1 else 0) 6 = 0 := by
  decide

example :
    applyGate 3 2 (0 : ℤ) 1 1 0 [0] (fun j => if j = 2 then 5 else 0) 2 = 5 := by
  decide

example : transposeState 2 2 id (fun p o => 2 * p + o) 3 = (3 : ℤ) := by
  decide

example : swapIndex 0 1 = 2 := by decide

end Qibo
